import Mathlib

/-!
Verification development for the `cimiutils` module of the cimi repository.

The module's core (per the specification) is
(a) a hierarchical attribute reconciliation engine over nested key/value
    documents: `match_up` (path-addressed field copy), `match_up_extra`
    (non-excluded top-level merge), `has_extra` (whitelist-based extra
    attribute detection) and `remove_member` (recursive attribute strip); and
(b) a resource existence probe `access_resource` classifying a backend HTTP
    response.

Python documents are shallow-embedded as the inductive type `PyVal`:
mappings are association lists with string keys (Python dicts preserve
insertion order and have unique keys), sequences are lists, scalars are
`none`, booleans, integers and strings.  In-place mutation of a document is
modelled by returning the updated document; code that can raise a Python
exception returns `Except PyErr _`.
-/

/-- A Python value as handled by `cimiutils`: `None`, booleans, integers,
strings, dicts with string keys (association list, insertion order), and
lists. -/
inductive PyVal where
  | none  : PyVal
  | bool  : Bool → PyVal
  | int   : Int → PyVal
  | str   : String → PyVal
  | dict  : List (String × PyVal) → PyVal
  | plist : List PyVal → PyVal
deriving Repr

/-- The Python exceptions the embedded code can raise. -/
inductive PyErr where
  | typeError      : PyErr
  | attributeError : PyErr
  | valueError     : PyErr
deriving Repr, DecidableEq

/-- Python truthiness for the values of `PyVal`: `None`, `False`, `0`, the
empty string, the empty dict and the empty list are falsy. -/
def truthy : PyVal → Bool
  | .none    => false
  | .bool b  => b
  | .int n   => !(n == 0)
  | .str s   => !(s == "")
  | .dict d  => !d.isEmpty
  | .plist l => !l.isEmpty

/-- Lookup in an association list (Python `dict` access by key: the key is
unique in a Python dict, so the first match is the binding). -/
def assocGet {α : Type} : List (String × α) → String → Option α
  | [], _ => Option.none
  | p :: rest, k => if p.1 = k then some p.2 else assocGet rest k

/-- Python `d[k] = v`: replace the binding of `k` if present, otherwise
append the new binding (insertion order). -/
def assocSet {α : Type} : List (String × α) → String → α → List (String × α)
  | [], k, v => [(k, v)]
  | p :: rest, k, v => if p.1 = k then (k, v) :: rest else p :: assocSet rest k v

/-- Python `k in d.keys()` for a string key. -/
def containsName {α : Type} : List (String × α) → String → Bool
  | [], _ => false
  | p :: rest, k => if p.1 = k then true else containsName rest k

/-- Python `str.strip('/')`: drop `/` characters from both ends. -/
def stripSlashes (s : String) : String :=
  String.mk (((s.toList.dropWhile (· = '/')).reverse.dropWhile (· = '/')).reverse)

/-- Python `str.split('/')` on a list of characters: always returns at least
one (possibly empty) segment. -/
def splitSlash : List Char → List (List Char)
  | [] => [[]]
  | c :: rest =>
    match splitSlash rest with
    | [] => [[]]
    | s :: ss => if c = '/' then [] :: s :: ss else (c :: s) :: ss

/-- `key_path.strip('/').split('/')` from `match_up.get_member`. -/
def splitKeys (p : String) : List String :=
  (splitSlash (stripSlashes p).toList).map (fun l => String.mk l)

/-- The descent loop of `match_up.get_member`:
`for idx in range(key_lens): if value: value = value.get(keys[idx]) else: break`.
Returns the list of keys actually consumed together with the value reached.
`value.get(k)` on a truthy non-dict raises `AttributeError`; `dict.get` of an
absent key yields `None`.  The consumed prefix records where in the tree the
reached value lives, which is how in-place mutation of the reached node is
modelled. -/
def walkLoop : PyVal → List String → Except PyErr (List String × PyVal)
  | value, [] => .ok ([], value)
  | value, k :: rest =>
    if truthy value then
      match value with
      | .dict d =>
        match walkLoop ((assocGet d k).getD .none) rest with
        | .ok (consumed, fin) => .ok (k :: consumed, fin)
        | .error e => .error e
      | _ => .error .attributeError
    else .ok ([], value)

/-- `get_member(data, key_path, False)` from `match_up`: resolve the whole
path; an empty (falsy) path yields the initial `value = None`. -/
def getMemberValue (data : PyVal) (key_path : String) : Except PyErr PyVal :=
  if key_path = "" then .ok .none
  else
    match walkLoop data (splitKeys key_path) with
    | .ok (_, v) => .ok v
    | .error e => .error e

/-- Write `v` under key `k` in the node of `t` addressed by the consumed
path: the pure counterpart of Python's in-place `data[key] = v` where `data`
is the node of `t` reached by following `consumed`. -/
def setAt : PyVal → List String → String → PyVal → PyVal
  | .dict d, [], k, v => .dict (assocSet d k v)
  | .dict d, k0 :: rest, k, v =>
      .dict (assocSet d k0 (setAt ((assocGet d k0).getD .none) rest k v))
  | x, _, _, _ => x

/-- `match_up(data_to, data_from, key_to, key_from)` from `cimiutils.py`:
resolve `key_to` in `data_to` down to the parent of its last segment
(`get_member(..., True)`), and if the last segment is a non-empty key,
assign to it the value of `key_from` resolved in `data_from`
(`get_member(..., False)[0]`).  Python evaluates the right-hand side before
the assignment; the assignment `data[key] = value` raises `TypeError` when
the reached parent is not a dict (e.g. `None`).  Returns the updated
`data_to` (it is mutated in place in Python); `data_from` is only read. -/
def match_up (data_to data_from : PyVal) (key_to key_from : String) :
    Except PyErr PyVal :=
  if key_to = "" then .ok data_to
  else
    let keys := splitKeys key_to
    let memKey := keys.getLast?.getD ""
    match walkLoop data_to keys.dropLast with
    | .error e => .error e
    | .ok (consumed, parentVal) =>
      if memKey = "" then .ok data_to
      else
        match getMemberValue data_from key_from with
        | .error e => .error e
        | .ok v =>
          match parentVal with
          | .dict _ => .ok (setAt data_to consumed memKey v)
          | _ => .error .typeError

/-- `match_up_extra(data_to, data_from, keys_to_exclude)` from
`cimiutils.py`: for every key of `data_from` not in `keys_to_exclude`,
`data_to[key] = data_from.get(key)`.  Both documents must be dicts for the
iteration and the assignments to succeed. -/
def match_up_extra (data_to data_from : PyVal) (keys_to_exclude : List String) :
    Except PyErr PyVal :=
  match data_to, data_from with
  | .dict t, .dict d =>
      .ok (.dict (d.foldl
        (fun acc p =>
          if p.1 ∈ keys_to_exclude then acc
          else assocSet acc p.1 ((assocGet d p.1).getD .none)) t))
  | _, .dict _ => .error .typeError
  | _, _ => .error .typeError

theorem sizeOf_assocGet {e : List (String × PyVal)} {k : String} {w : PyVal}
    (h : assocGet e k = some w) : sizeOf w < sizeOf e := by
  induction e with
  | nil => simp [assocGet] at h
  | cons p rest ih =>
    simp only [assocGet] at h
    by_cases hk : p.1 = k
    · simp [hk] at h
      subst h
      obtain ⟨a, b⟩ := p
      simp
      omega
    · simp [hk] at h
      have := ih h
      simp
      omega

theorem truthy_getD_sizeOf (e : List (String × PyVal)) (k : String)
    (h : truthy ((assocGet e k).getD PyVal.none) = true) :
    sizeOf ((assocGet e k).getD PyVal.none) + 1 < sizeOf (PyVal.dict e) := by
  cases hg : assocGet e k with
  | none => rw [hg] at h; simp [truthy] at h
  | some w =>
    have := sizeOf_assocGet hg
    simp only [Option.getD_some]
    simp
    omega

/-- What Python iteration `for key in data_from` yields: a dict yields its
keys (as strings, in order), a list its elements, a string its characters
(as one-character strings); `None`, booleans and integers are not iterable
and raise `TypeError`. -/
def iterOf : PyVal → Except PyErr (List PyVal)
  | .dict d => .ok (d.map (fun p => .str p.1))
  | .plist l => .ok l
  | .str s => .ok (s.toList.map (fun c => .str (String.mk [c])))
  | _ => .error .typeError

mutual

/-- `has_extra(data_from, keys_to_exclude)` from `cimiutils.py`: iterate the
keys of `data_from`; a key absent from `keys_to_exclude` makes the result
`True` at once; a key whose exclusion entry is truthy triggers recursion
into `data_from.get(key)` with that entry; otherwise the key is skipped.
`keys_to_exclude.keys()` on a non-dict raises `AttributeError` (only when
the loop body runs), iterating a non-iterable raises `TypeError`, and
membership of an unhashable key raises `TypeError`, as in Python. -/
def has_extra (data_from keys_to_exclude : PyVal) : Except PyErr Bool :=
  match iterOf data_from with
  | .error e => .error e
  | .ok items => hasExtraLoop data_from keys_to_exclude items
termination_by (sizeOf keys_to_exclude + 1, 0)

/-- The `for key in data_from` loop of `has_extra`, with `items` the keys
still to visit. -/
def hasExtraLoop (data_from keys_to_exclude : PyVal) (items : List PyVal) :
    Except PyErr Bool :=
  match items with
  | [] => .ok false
  | item :: rest =>
    match keys_to_exclude with
    | .dict e =>
      match item with
      | .str k =>
        if containsName e k then
          if htr : truthy ((assocGet e k).getD .none) then
            match data_from with
            | .dict d =>
              match has_extra ((assocGet d k).getD PyVal.none)
                  ((assocGet e k).getD PyVal.none) with
              | .error e2 => .error e2
              | .ok true => .ok true
              | .ok false => hasExtraLoop (.dict d) (.dict e) rest
            | _ => .error .attributeError
          else hasExtraLoop data_from (.dict e) rest
        else .ok true
      | .dict _ => .error .typeError
      | .plist _ => .error .typeError
      | _ => .ok true
    | _ => .error .attributeError
termination_by (sizeOf keys_to_exclude, items.length + 1)
decreasing_by
  · exact Prod.Lex.left _ _ (truthy_getD_sizeOf _ _ htr)
  · apply Prod.Lex.right
    simp
  · apply Prod.Lex.right
    simp

end

mutual

/-- `remove_member(data, member)` from `cimiutils.py`: pop `member` from a
dict (its value is not descended into), then recurse into the values of the
remaining keys; recurse into every element of a list; leave scalars
unchanged.  Python dict keys are unique, so popping `member` before the
loop removes exactly the bindings named `member`. -/
def remove_member (data : PyVal) (member : String) : PyVal :=
  match data with
  | .dict d => .dict (removeEntries d member)
  | .plist l => .plist (removeElems l member)
  | x => x

/-- The dict case of `remove_member`: drop the binding named `member`,
recurse into the remaining values. -/
def removeEntries (d : List (String × PyVal)) (member : String) :
    List (String × PyVal) :=
  match d with
  | [] => []
  | (k, v) :: rest =>
    if k = member then removeEntries rest member
    else (k, remove_member v member) :: removeEntries rest member

/-- The list case of `remove_member`: recurse into every element. -/
def removeElems (l : List PyVal) (member : String) : List PyVal :=
  match l with
  | [] => []
  | v :: rest => remove_member v member :: removeElems rest member

end

mutual

/-- Does some mapping anywhere in the document (including mappings inside
list elements) contain the key `member`? -/
def containsKey (member : String) (data : PyVal) : Bool :=
  match data with
  | .dict d => containsKeyEntries member d
  | .plist l => containsKeyElems member l
  | _ => false

/-- `containsKey` over the bindings of a mapping. -/
def containsKeyEntries (member : String) (d : List (String × PyVal)) : Bool :=
  match d with
  | [] => false
  | (k, v) :: rest =>
    (k == member) || containsKey member v || containsKeyEntries member rest

/-- `containsKey` over the elements of a list. -/
def containsKeyElems (member : String) (l : List PyVal) : Bool :=
  match l with
  | [] => false
  | v :: rest => containsKey member v || containsKeyElems member rest

end

/-- Python `int(s)` restricted to the decimal naturals that appear as
`content-length` values: all-digit strings parse, anything else raises
`ValueError`. -/
def intParse (s : String) : Option Nat :=
  let cs := s.toList
  if cs = [] then Option.none
  else if cs.all (fun c => c.isDigit) then
    some (cs.foldl (fun a c => a * 10 + (c.toNat - 48)) 0)
  else Option.none

/-- The backend HTTP response observed by `access_resource`, abstracting the
`httplib` response object: a status code, the header list returned by
`res.getheaders()` (name/value pairs), and the byte stream that `res.read`
consumes.  The request-building half of `access_resource` (webob `Request`,
plain or TLS `HTTPConnection`, forwarded headers) is network I/O outside the
shallow embedding; the claims quantify over the response the backend sends,
which this structure represents. -/
structure HttpResponse where
  status  : Nat
  headers : List (String × String)
  stream  : List Nat

/-- The header-collection loop of `access_resource`:
`for header in res.getheaders(): values[header[0]] = header[1]`. -/
def collectHeaders (hs : List (String × String)) : List (String × String) :=
  hs.foldl (fun acc p => assocSet acc p.1 p.2) []

/-- ASCII lowercasing of a string, character by character. -/
def lowerString (s : String) : String :=
  String.mk (s.toList.map Char.toLower)

/-- `res.getheader(name)`: case-insensitive lookup of a response header
(first match), `None` when absent. -/
def getHeader (hs : List (String × String)) (name : String) : Option String :=
  (hs.find? (fun p => lowerString p.1 == name)).map (fun p => p.2)

/-- The response-classification half of `access_resource(env, method, path,
get_body, query_string, body)` from `cimiutils.py`, from
`res = conn.getresponse()` on.  Returns the Python result tuple
`(exists, headers, body, status)` paired with the part of the response
stream left unread (so that "the body is never read" is observable).
`body` is `Option.none` for Python `None` and `some bytes` for a string of
bytes; `int(length)` on a non-numeric `content-length` raises `ValueError`.
Status 404/413: close, return `(False, {}, None, status)` without reading.
Status 200/204/201: collect headers; read `int(content-length)` bytes when
`get_body` and the header is truthy, read to the end when `get_body` and it
is absent or empty, else use the empty string.  Any other status: collect
headers, body `None`. -/
def access_resource (res : HttpResponse) (get_body : Bool) :
    Except PyErr ((Bool × List (String × String) × Option (List Nat) × Nat) × List Nat) :=
  if res.status == 404 || res.status == 413 then
    .ok ((false, [], Option.none, res.status), res.stream)
  else if res.status == 200 || res.status == 204 || res.status == 201 then
    let values := collectHeaders res.headers
    if get_body then
      match getHeader res.headers "content-length" with
      | some len =>
        if len == "" then .ok ((true, values, some res.stream, res.status), [])
        else
          match intParse len with
          | some n =>
              .ok ((true, values, some (res.stream.take n), res.status),
                res.stream.drop n)
          | Option.none => .error .valueError
      | Option.none => .ok ((true, values, some res.stream, res.status), [])
    else .ok ((true, values, some [], res.status), res.stream)
  else
    .ok ((true, collectHeaders res.headers, Option.none, res.status), res.stream)

/-!
## Claim C2

The spec's end-to-end example asserts that
`copy_field(target={}, source={"meta":{"href":"/x/1"}}, target_path="/link",
source_path="/meta/href")` leaves `target` unchanged.  In the code the
parent resolution of `"/link"` consumes no segment at all (`key_lens = 0`),
so the reached parent is `target` itself and `target["link"]` is assigned:
the call writes `{"link": "/x/1"}`.
-/

/-- Claim C2, as stated, is false: on the quoted input `match_up` does not
leave the target equal to the empty mapping. -/
theorem claim2_counterexample :
    match_up (.dict []) (.dict [("meta", .dict [("href", .str "/x/1")])])
      "/link" "/meta/href" ≠ .ok (.dict []) := by
  have h : match_up (.dict []) (.dict [("meta", .dict [("href", .str "/x/1")])])
      "/link" "/meta/href" = .ok (.dict [("link", .str "/x/1")]) := rfl
  rw [h]
  simp

/-- Claim C2 amended: on the quoted input `match_up` writes the resolved
source value under the top-level key `link`, so the target becomes
`{"link": "/x/1"}`. -/
theorem claim2_amended :
    match_up (.dict []) (.dict [("meta", .dict [("href", .str "/x/1")])])
      "/link" "/meta/href" = .ok (.dict [("link", .str "/x/1")]) := rfl

/-!
## Claim C9

When parent resolution reaches a falsy node (here the empty mapping stored
under `"a"`), the loop breaks early and the final key is written directly
into that node, skipping the remaining intermediate segments.
-/

/-- Claim C9: with `target = {"a": {}}` and `target_path = "/a/b/c"`,
`match_up` writes the final key `c` (with the resolved source value, here
`7` from `source = {"m": 7}` at `"/m"`) directly into `target["a"]`,
producing `{"a": {"c": 7}}` with no `b` level anywhere in the result. -/
theorem claim9_example :
    match_up (.dict [("a", .dict [])]) (.dict [("m", .int 7)]) "/a/b/c" "/m" =
      .ok (.dict [("a", .dict [("c", .int 7)])]) ∧
    containsKey "b" (.dict [("a", .dict [("c", .int 7)])]) = false :=
  ⟨rfl, rfl⟩

/-!
## Claim C1

The claim says a missing intermediate target segment makes `copy_field` a
silent no-op that raises no error.  In the code, when an intermediate
segment is absent from a truthy (non-empty) mapping reached during parent
resolution, `dict.get` yields `None`, the loop finishes with `value = None`,
and since the final key is non-empty the assignment `data[key] = ...`
executes on `None` and raises `TypeError`.  (When resolution instead stops
at a falsy node, the key is written into that node — claim C9 — which also
contradicts "no write".)
-/

/-- Claim C1, as stated, is false: with `target = {"x": 1}` and
`target_path = "/a/b"` the intermediate segment `a` is absent from the
mapping reached so far, and the call raises `TypeError` instead of being a
silent no-op. -/
theorem claim1_counterexample :
    match_up (.dict [("x", .int 1)]) (.dict [("m", .int 5)]) "/a/b" "/m" =
      .error .typeError := rfl

/-- Claim C1 amended: for a multi-segment `target_path` with a non-empty
final segment, whenever the parent-resolution loop ends on the value `None`
(which is what an intermediate segment absent from — or bound to null in —
a truthy mapping produces), `match_up` raises an error rather than writing;
the target document is left unchanged because the failure happens before
any assignment. -/
theorem claim1_amended (t s : PyVal) (tp sp : String) (inter : List String)
    (k : String) (consumed : List String)
    (h1 : tp ≠ "") (h2 : splitKeys tp = inter ++ [k]) (h3 : k ≠ "")
    (h4 : walkLoop t inter = .ok (consumed, PyVal.none)) :
    ∃ e, match_up t s tp sp = .error e := by
  unfold match_up
  rw [if_neg h1, h2]
  simp only [List.dropLast_concat, List.getLast?_concat, Option.getD_some, h4,
    if_neg h3]
  cases hs : getMemberValue s sp with
  | error e => exact ⟨e, rfl⟩
  | ok v => exact ⟨.typeError, rfl⟩

/-- Witness for C1 amended at the counterexample input. -/
theorem claim1_witness :
    ("/a/b" : String) ≠ "" ∧ splitKeys "/a/b" = ["a"] ++ ["b"] ∧
    ("b" : String) ≠ "" ∧
    walkLoop (PyVal.dict [("x", PyVal.int 1)]) ["a"] = .ok (["a"], PyVal.none) ∧
    ∃ e, match_up (.dict [("x", .int 1)]) (.dict [("m", .int 5)]) "/a/b" "/m" =
      .error e :=
  ⟨by decide, rfl, by decide, rfl,
    claim1_amended (PyVal.dict [("x", PyVal.int 1)])
      (PyVal.dict [("m", PyVal.int 5)]) "/a/b" "/m" ["a"] "b" ["a"]
      (by decide) rfl (by decide) rfl⟩

/-!
## Claim C6

A backend status of 404 or 413 makes `access_resource` close the connection
and return `(False, {}, None, status)`; the response stream is returned
untouched, so no body byte is read even when `get_body` is true.
-/

/-- Claim C6: on status 404 or 413 the probe returns exactly
`(False, {}, None, status)` and the response stream is left unread,
whatever `get_body` is. -/
theorem claim6_notfound (res : HttpResponse) (get_body : Bool)
    (h : res.status = 404 ∨ res.status = 413) :
    access_resource res get_body =
      .ok ((false, [], Option.none, res.status), res.stream) := by
  unfold access_resource
  rcases h with h | h <;> rw [h] <;> rfl

/-- Witness for C6 at a concrete 404 response with `get_body = true`. -/
theorem claim6_witness :
    ((404 : Nat) = 404 ∨ (404 : Nat) = 413) ∧
    access_resource ⟨404, [("a", "b")], [9, 9]⟩ true =
      .ok ((false, [], Option.none, 404), [9, 9]) :=
  ⟨Or.inl rfl, claim6_notfound ⟨404, [("a", "b")], [9, 9]⟩ true (Or.inl rfl)⟩

/-- Induction over `PyVal` trees: to prove `P` everywhere it suffices to
prove it on scalars and to lift it through dicts and lists pointwise. -/
theorem pyval_induction {P : PyVal → Prop}
    (hnone : P .none) (hbool : ∀ b, P (.bool b)) (hint : ∀ n, P (.int n))
    (hstr : ∀ s, P (.str s))
    (hdict : ∀ d, (∀ p ∈ d, P p.2) → P (.dict d))
    (hlist : ∀ l, (∀ x ∈ l, P x) → P (.plist l)) : ∀ v, P v := by
  have key : ∀ n, ∀ v : PyVal, sizeOf v ≤ n → P v := by
    intro n
    induction n with
    | zero =>
      intro v hv
      exfalso
      cases v <;> simp at hv
    | succ n ih =>
      intro v hv
      cases v with
      | dict d =>
        apply hdict
        intro p hp
        apply ih
        have h1 := List.sizeOf_lt_of_mem hp
        have h2 : sizeOf p.2 < sizeOf p := by
          obtain ⟨a, b⟩ := p
          simp only [Prod.mk.sizeOf_spec]
          omega
        simp at hv
        omega
      | plist l =>
        apply hlist
        intro x hx
        apply ih
        have h1 := List.sizeOf_lt_of_mem hx
        simp at hv
        omega
      | none => exact hnone
      | bool b => exact hbool b
      | int m => exact hint m
      | str s => exact hstr s
  exact fun v => key (sizeOf v) v le_rfl

/-!
## Claim C5

`strip_field` (`remove_member`) removes every binding named `m` from every
mapping at every depth, including mappings inside list elements, and doing
it twice is the same as doing it once.
-/

theorem removeEntries_cons (k : String) (v : PyVal)
    (rest : List (String × PyVal)) (m : String) :
    removeEntries ((k, v) :: rest) m =
      if k = m then removeEntries rest m
      else (k, remove_member v m) :: removeEntries rest m := rfl

theorem containsKeyEntries_cons (m k : String) (v : PyVal)
    (rest : List (String × PyVal)) :
    containsKeyEntries m ((k, v) :: rest) =
      ((k == m) || containsKey m v || containsKeyEntries m rest) := rfl

theorem removeElems_cons (x : PyVal) (rest : List PyVal) (m : String) :
    removeElems (x :: rest) m = remove_member x m :: removeElems rest m := rfl

theorem containsKeyElems_cons (m : String) (x : PyVal) (rest : List PyVal) :
    containsKeyElems m (x :: rest) =
      (containsKey m x || containsKeyElems m rest) := rfl

theorem stripEntries_ok (m : String) (d : List (String × PyVal))
    (h : ∀ p ∈ d, containsKey m (remove_member p.2 m) = false ∧
      remove_member (remove_member p.2 m) m = remove_member p.2 m) :
    containsKeyEntries m (removeEntries d m) = false ∧
    removeEntries (removeEntries d m) m = removeEntries d m := by
  induction d with
  | nil => exact ⟨rfl, rfl⟩
  | cons p rest ih =>
    obtain ⟨k, v⟩ := p
    have hv := h (k, v) (List.mem_cons_self _ _)
    have hrest := ih (fun q hq => h q (List.mem_cons_of_mem _ hq))
    by_cases hk : k = m
    · rw [removeEntries_cons, if_pos hk]
      exact hrest
    · rw [removeEntries_cons, if_neg hk]
      refine ⟨?_, ?_⟩
      · rw [containsKeyEntries_cons]
        rw [hv.1, hrest.1]
        simp [hk]
      · rw [removeEntries_cons, if_neg hk]
        rw [hv.2, hrest.2]

theorem stripElems_ok (m : String) (l : List PyVal)
    (h : ∀ x ∈ l, containsKey m (remove_member x m) = false ∧
      remove_member (remove_member x m) m = remove_member x m) :
    containsKeyElems m (removeElems l m) = false ∧
    removeElems (removeElems l m) m = removeElems l m := by
  induction l with
  | nil => exact ⟨rfl, rfl⟩
  | cons x rest ih =>
    have hx := h x (List.mem_cons_self _ _)
    have hrest := ih (fun y hy => h y (List.mem_cons_of_mem _ hy))
    refine ⟨?_, ?_⟩
    · rw [removeElems_cons, containsKeyElems_cons]
      rw [hx.1, hrest.1]
      simp
    · rw [removeElems_cons, removeElems_cons]
      rw [hx.2, hrest.2]

/-- Claim C5: after `remove_member doc m`, no mapping anywhere in the
result (at any depth, including inside list elements) contains the key `m`,
and stripping again with the same `m` changes nothing. -/
theorem claim5_strip (doc : PyVal) (m : String) :
    containsKey m (remove_member doc m) = false ∧
    remove_member (remove_member doc m) m = remove_member doc m := by
  induction doc using pyval_induction with
  | hnone => exact ⟨rfl, rfl⟩
  | hbool b => exact ⟨rfl, rfl⟩
  | hint n => exact ⟨rfl, rfl⟩
  | hstr s => exact ⟨rfl, rfl⟩
  | hdict d hd =>
    have hE := stripEntries_ok m d hd
    refine ⟨?_, ?_⟩
    · show containsKeyEntries m (removeEntries d m) = false
      exact hE.1
    · show PyVal.dict (removeEntries (removeEntries d m) m) =
        PyVal.dict (removeEntries d m)
      rw [hE.2]
  | hlist l hl =>
    have hL := stripElems_ok m l hl
    refine ⟨?_, ?_⟩
    · show containsKeyElems m (removeElems l m) = false
      exact hL.1
    · show PyVal.plist (removeElems (removeElems l m) m) =
        PyVal.plist (removeElems l m)
      rw [hL.2]

/-!
## Claim C8

`copy_extra` (`match_up_extra`) copies every non-excluded top-level
attribute of the source over the target and leaves excluded names alone.
-/

theorem assocGet_set_self {α : Type} (l : List (String × α)) (k : String)
    (v : α) : assocGet (assocSet l k v) k = some v := by
  induction l with
  | nil => simp [assocSet, assocGet]
  | cons p rest ih =>
    by_cases h : p.1 = k
    · simp [assocSet, assocGet, h]
    · simp [assocSet, assocGet, h, ih]

theorem assocGet_set_ne {α : Type} (l : List (String × α)) (k k' : String)
    (v : α) (h : k ≠ k') : assocGet (assocSet l k v) k' = assocGet l k' := by
  induction l with
  | nil => simp [assocSet, assocGet, h]
  | cons p rest ih =>
    by_cases hp : p.1 = k
    · simp only [assocSet, if_pos hp, assocGet]
      rw [if_neg h, if_neg (hp ▸ h)]
    · simp only [assocSet, if_neg hp, assocGet]
      by_cases hpk : p.1 = k'
      · rw [if_pos hpk, if_pos hpk]
      · rw [if_neg hpk, if_neg hpk, ih]

theorem mem_map_fst_assocGet {α : Type} (l : List (String × α)) (k : String)
    (h : k ∈ l.map Prod.fst) : ∃ w, assocGet l k = some w := by
  induction l with
  | nil => simp at h
  | cons p rest ih =>
    simp only [List.map_cons, List.mem_cons] at h
    by_cases hp : p.1 = k
    · exact ⟨p.2, by simp [assocGet, hp]⟩
    · have hr : k ∈ rest.map Prod.fst := by
        rcases h with h | h
        · exact absurd h.symm hp
        · exact h
      obtain ⟨w, hw⟩ := ih hr
      exact ⟨w, by simp [assocGet, hp, hw]⟩

theorem mergeFold_get (d : List (String × PyVal)) (excl : List String) :
    ∀ (ds acc : List (String × PyVal)) (k : String),
    assocGet (ds.foldl (fun acc p => if p.1 ∈ excl then acc
      else assocSet acc p.1 ((assocGet d p.1).getD .none)) acc) k =
    if k ∈ ds.map Prod.fst ∧ k ∉ excl then some ((assocGet d k).getD .none)
    else assocGet acc k := by
  intro ds
  induction ds with
  | nil => intro acc k; simp
  | cons p rest ih =>
    intro acc k
    rw [List.foldl_cons, ih]
    simp only [List.map_cons, List.mem_cons]
    by_cases hA : k ∈ List.map Prod.fst rest ∧ k ∉ excl
    · rw [if_pos hA,
        if_pos (show (k = p.1 ∨ k ∈ List.map Prod.fst rest) ∧ k ∉ excl from
          ⟨Or.inr hA.1, hA.2⟩)]
    · rw [if_neg hA]
      by_cases hC : (k = p.1 ∨ k ∈ List.map Prod.fst rest) ∧ k ∉ excl
      · rw [if_pos hC]
        have hk : k = p.1 := by tauto
        have hpB : p.1 ∉ excl := fun hin => hC.2 (by rw [hk]; exact hin)
        rw [if_neg hpB, hk]
        exact assocGet_set_self acc p.1 _
      · rw [if_neg hC]
        by_cases hB : p.1 ∈ excl
        · rw [if_pos hB]
        · rw [if_neg hB]
          have hk : p.1 ≠ k :=
            fun he => hC ⟨Or.inl he.symm, fun hkx => hB (by rw [he]; exact hkx)⟩
          exact assocGet_set_ne acc p.1 k _ hk

/-- Claim C8: for dict-shaped target and source, `match_up_extra` succeeds
and returns a dict `r` such that every top-level source attribute whose
name is not excluded is bound in `r` to the source's value for that name,
while every excluded name keeps exactly the binding (or absence) it had in
the target. -/
theorem claim8_copy_extra (t d : List (String × PyVal)) (excl : List String) :
    ∃ r, match_up_extra (.dict t) (.dict d) excl = .ok (.dict r) ∧
      (∀ k, k ∈ d.map Prod.fst → k ∉ excl → assocGet r k = assocGet d k) ∧
      (∀ k, k ∈ excl → assocGet r k = assocGet t k) := by
  refine ⟨_, rfl, ?_, ?_⟩
  · intro k hk hx
    rw [mergeFold_get d excl d t k, if_pos ⟨hk, hx⟩]
    obtain ⟨w, hw⟩ := mem_map_fst_assocGet d k hk
    rw [hw]
    rfl
  · intro k hk
    rw [mergeFold_get d excl d t k, if_neg (by tauto)]

/-- Witness for C8 at a concrete merge: source `{"a": 9, "b": 3, "e": 7}`
into target `{"a": 1, "e": 2}` with `e` excluded. -/
theorem claim8_witness :
    ∃ r, match_up_extra (.dict [("a", .int 1), ("e", .int 2)])
        (.dict [("a", .int 9), ("b", .int 3), ("e", .int 7)]) ["e"] =
        .ok (.dict r) ∧
      (∀ k, k ∈ [("a", PyVal.int 9), ("b", PyVal.int 3),
          ("e", PyVal.int 7)].map Prod.fst → k ∉ ["e"] →
        assocGet r k =
          assocGet [("a", PyVal.int 9), ("b", PyVal.int 3),
            ("e", PyVal.int 7)] k) ∧
      (∀ k, k ∈ ["e"] → assocGet r k =
        assocGet [("a", PyVal.int 1), ("e", PyVal.int 2)] k) :=
  claim8_copy_extra [("a", .int 1), ("e", .int 2)]
    [("a", .int 9), ("b", .int 3), ("e", .int 7)] ["e"]

/-!
## Claim C7

On backend status 200, 201 or 204 the probe reports existence, collects all
response headers, and reads the body only when requested: exactly
`content-length` bytes when that header is present and non-empty, the whole
stream otherwise, and the empty string (not `None`) when `get_body` is
false.
-/

theorem collect_aux :
    ∀ (hs acc : List (String × String)) (k : String),
    ((∃ v, (k, v) ∈ hs) ∨ ∃ w, assocGet acc k = some w) →
    ∃ w, assocGet (hs.foldl (fun acc p => assocSet acc p.1 p.2) acc) k =
      some w := by
  intro hs
  induction hs with
  | nil =>
    intro acc k h
    rcases h with ⟨v, hv⟩ | h
    · simp at hv
    · exact h
  | cons p rest ih =>
    intro acc k h
    rw [List.foldl_cons]
    apply ih
    rcases h with ⟨v, hv⟩ | ⟨w, hw⟩
    · rcases List.mem_cons.mp hv with he | hm
      · right
        refine ⟨v, ?_⟩
        rw [← he]
        exact assocGet_set_self acc k v
      · exact Or.inl ⟨v, hm⟩
    · right
      by_cases hpk : p.1 = k
      · exact ⟨p.2, by rw [← hpk]; exact assocGet_set_self acc p.1 p.2⟩
      · exact ⟨w, by rw [assocGet_set_ne acc p.1 k p.2 hpk]; exact hw⟩

theorem collectHeaders_mem (hs : List (String × String)) (k v : String)
    (h : (k, v) ∈ hs) : ∃ w, assocGet (collectHeaders hs) k = some w :=
  collect_aux hs [] k (Or.inl ⟨v, h⟩)

/-- Claim C7: on status 200, 201 or 204, (a) every response header name
ends up in the collected header mapping; (b) with `get_body = false` the
returned body is the empty string (`some []`), not `None`, and nothing is
read; (c) with `get_body = true` and a non-empty `content-length` header
parsing to `n ≤` the stream length, the returned body is exactly the first
`n` bytes of the stream (so its length is `n`) and exactly those bytes are
consumed. -/
theorem claim7_success (res : HttpResponse)
    (hst : res.status = 200 ∨ res.status = 201 ∨ res.status = 204) :
    (∀ k v, (k, v) ∈ res.headers →
      ∃ w, assocGet (collectHeaders res.headers) k = some w) ∧
    access_resource res false =
      .ok ((true, collectHeaders res.headers, some [], res.status),
        res.stream) ∧
    (∀ len n, getHeader res.headers "content-length" = some len → len ≠ "" →
      intParse len = some n → n ≤ res.stream.length →
      access_resource res true =
        .ok ((true, collectHeaders res.headers, some (res.stream.take n),
          res.status), res.stream.drop n) ∧
      (res.stream.take n).length = n) := by
  refine ⟨fun k v hv => collectHeaders_mem res.headers k v hv, ?_, ?_⟩
  · unfold access_resource
    rcases hst with h | h | h <;> rw [h] <;> rfl
  · intro len n hlen hne hparse hbound
    refine ⟨?_, ?_⟩
    · unfold access_resource
      have hb : (len == "") = false := by
        simp only [beq_eq_false_iff_ne, ne_eq]
        exact hne
      rcases hst with h | h | h <;> rw [h] <;>
        simp only [hlen, hb, hparse, Bool.false_eq_true, if_false, if_true,
          Nat.reduceBEq, Bool.or_self, Bool.false_or, Bool.or_false]
    · rw [List.length_take]
      omega

/-- Witness for C7 at a 200 response carrying `content-length: 5` over a
6-byte stream, with `get_body = true`: exactly 5 bytes are returned. -/
theorem claim7_witness :
    access_resource
        ⟨200, [("content-length", "5"), ("x", "y")], [1, 2, 3, 4, 5, 6]⟩
        true =
      .ok ((true, collectHeaders [("content-length", "5"), ("x", "y")],
        some [1, 2, 3, 4, 5], 200), [6]) ∧
    ([1, 2, 3, 4, 5, 6].take 5).length = 5 :=
  (claim7_success ⟨200, [("content-length", "5"), ("x", "y")],
      [1, 2, 3, 4, 5, 6]⟩ (Or.inl rfl)).2.2 "5" 5 rfl (by decide) rfl
    (by decide)

/-!
## Claim C3

The claim: when the target path's parent chain fully resolves and the final
segment is non-empty, the parent ends up mapping the final key to the
source-resolved value, "or to null when source_path does not fully
resolve".  The second half is wrong: when source resolution stops early at
a falsy node (e.g. an empty mapping), the value written is that node, not
null; and when a segment is looked up on a truthy non-mapping the call
raises instead of writing.  The amended statement describes the written
value by the spec-level resolver `specResolve` below.
-/

/-- Resolve a chain of keys through mapping nodes that are all present:
`chainResolves t inter = some parent` states that every segment of `inter`
is bound in the mapping reached so far (the spec's "the parent chain fully
resolves"). -/
def chainResolves : PyVal → List String → Option PyVal
  | v, [] => some v
  | .dict d, k :: rest =>
    match assocGet d k with
    | some v => chainResolves v rest
    | Option.none => Option.none
  | _, _ => Option.none

/-- Spec-level description of source-side path resolution (amended claim
C3): a fully resolved path yields the addressed value; a segment applied to
a falsy node stops and yields that node (so a missing key in a truthy
mapping yields `None` one step later); a segment applied to a truthy
non-mapping raises `AttributeError`. -/
def specResolveGo : PyVal → List String → Except PyErr PyVal
  | v, [] => .ok v
  | v, k :: rest =>
    if truthy v = false then .ok v
    else
      match v with
      | .dict d => specResolveGo ((assocGet d k).getD .none) rest
      | _ => .error .attributeError

/-- Spec-level source resolution including the falsy-path case: an empty
path yields `None`. -/
def specResolve (data : PyVal) (path : String) : Except PyErr PyVal :=
  if path = "" then .ok .none else specResolveGo data (splitKeys path)

theorem walkLoop_snd : ∀ (ks : List String) (v : PyVal),
    (walkLoop v ks).map (fun p => p.2) = specResolveGo v ks := by
  intro ks
  induction ks with
  | nil => intro v; rfl
  | cons k rest ih =>
    intro v
    by_cases ht : truthy v
    · cases v with
      | dict d =>
        simp only [walkLoop, if_pos ht, specResolveGo, ht, Bool.true_eq_false,
          if_false]
        rw [← ih]
        cases walkLoop ((assocGet d k).getD .none) rest with
        | ok pr => obtain ⟨c, f⟩ := pr; rfl
        | error e => rfl
      | none => simp [truthy] at ht
      | bool b =>
        simp only [walkLoop, if_pos ht, specResolveGo, ht, Bool.true_eq_false,
          if_false]
        rfl
      | int n =>
        simp only [walkLoop, if_pos ht, specResolveGo, ht, Bool.true_eq_false,
          if_false]
        rfl
      | str s2 =>
        simp only [walkLoop, if_pos ht, specResolveGo, ht, Bool.true_eq_false,
          if_false]
        rfl
      | plist l =>
        simp only [walkLoop, if_pos ht, specResolveGo, ht, Bool.true_eq_false,
          if_false]
        rfl
    · have ht' : truthy v = false := by
        cases hb : truthy v
        · rfl
        · exact absurd hb ht
      simp only [walkLoop, ht', Bool.false_eq_true, if_false, specResolveGo,
        if_true]
      rfl

theorem getMemberValue_eq_spec (data : PyVal) (path : String) :
    getMemberValue data path = specResolve data path := by
  unfold getMemberValue specResolve
  by_cases h : path = ""
  · rw [if_pos h, if_pos h]
  · rw [if_neg h, if_neg h, ← walkLoop_snd]
    cases walkLoop data (splitKeys path) with
    | ok pr => obtain ⟨c, v⟩ := pr; rfl
    | error e => rfl

theorem walk_of_chain : ∀ (inter : List String) (t : PyVal)
    (p : List (String × PyVal)), chainResolves t inter = some (.dict p) →
    walkLoop t inter = .ok (inter, .dict p) := by
  intro inter
  induction inter with
  | nil =>
    intro t p h
    simp only [chainResolves, Option.some.injEq] at h
    rw [h]
    rfl
  | cons k rest ih =>
    intro t p h
    cases t with
    | dict d =>
      simp only [chainResolves] at h
      cases hg : assocGet d k with
      | none => rw [hg] at h; simp at h
      | some v =>
        rw [hg] at h
        have hne : d ≠ [] := by
          intro he
          rw [he] at hg
          simp [assocGet] at hg
        have htr : truthy (PyVal.dict d) = true := by
          simp [truthy, hne]
        simp only [walkLoop, htr, if_true, hg, Option.getD_some, ih v p h]
    | none => simp [chainResolves] at h
    | bool b => simp [chainResolves] at h
    | int n => simp [chainResolves] at h
    | str s2 => simp [chainResolves] at h
    | plist l => simp [chainResolves] at h

theorem chain_set (k : String) (v : PyVal) : ∀ (inter : List String)
    (t : PyVal) (p : List (String × PyVal)),
    chainResolves t inter = some (.dict p) →
    chainResolves (setAt t inter k v) inter =
      some (.dict (assocSet p k v)) := by
  intro inter
  induction inter with
  | nil =>
    intro t p h
    simp only [chainResolves, Option.some.injEq] at h
    rw [h]
    rfl
  | cons k0 rest ih =>
    intro t p h
    cases t with
    | dict d =>
      simp only [chainResolves] at h
      cases hg : assocGet d k0 with
      | none => rw [hg] at h; simp at h
      | some w =>
        rw [hg] at h
        simp only [setAt, hg, Option.getD_some, chainResolves,
          assocGet_set_self]
        exact ih w p h
    | none => simp [chainResolves] at h
    | bool b => simp [chainResolves] at h
    | int n => simp [chainResolves] at h
    | str s2 => simp [chainResolves] at h
    | plist l => simp [chainResolves] at h

/-- Claim C3, as stated, is false: with `target = {}` (whose parent chain
for `"/link"` resolves trivially), `source = {"a": {}}` and
`source_path = "/a/b"`, source resolution stops at the falsy node `{}`
under `a`, and the value written under `link` is that empty mapping — not
null, although `source_path` does not fully resolve. -/
theorem claim3_counterexample :
    match_up (.dict []) (.dict [("a", .dict [])]) "/link" "/a/b" =
      .ok (.dict [("link", .dict [])]) ∧
    PyVal.dict [] ≠ PyVal.none :=
  ⟨rfl, by simp⟩

/-- Claim C3 amended: when every intermediate segment of the target path
resolves to a present mapping node (`chainResolves`) and the final segment
is non-empty, `match_up` writes into the resolved parent the value
described by `specResolve`: the fully resolved source value when every
source segment resolves through truthy mappings, `None` when a segment is
missing from (or null in) a truthy mapping, the falsy node itself when
resolution stops early on a falsy node, and no write at all (the error
propagates) when a segment is looked up on a truthy non-mapping.  The
parent node of the result maps the final key to exactly that value; the
source document is only ever read.  -/
theorem claim3_amended (t s : PyVal) (tp sp : String) (inter : List String)
    (k : String) (p : List (String × PyVal)) (v : PyVal)
    (h1 : tp ≠ "") (h2 : splitKeys tp = inter ++ [k]) (h3 : k ≠ "")
    (hchain : chainResolves t inter = some (.dict p))
    (hsrc : specResolve s sp = .ok v) :
    match_up t s tp sp = .ok (setAt t inter k v) ∧
    chainResolves (setAt t inter k v) inter =
      some (.dict (assocSet p k v)) ∧
    assocGet (assocSet p k v) k = some v := by
  refine ⟨?_, chain_set k v inter t p hchain, assocGet_set_self p k v⟩
  unfold match_up
  rw [if_neg h1, h2]
  simp only [List.dropLast_concat, List.getLast?_concat, Option.getD_some,
    walk_of_chain inter t p hchain, if_neg h3, getMemberValue_eq_spec, hsrc]

/-- Witness for C3 amended: target `{"a": {"b": {}}}` with path `/a/b/c`
(the parent chain a, b fully resolves to the empty mapping) and source
`{"m": 7}` with path `/m`. -/
theorem claim3_witness :
    ("/a/b/c" : String) ≠ "" ∧ splitKeys "/a/b/c" = ["a", "b"] ++ ["c"] ∧
    ("c" : String) ≠ "" ∧
    chainResolves (.dict [("a", .dict [("b", .dict [])])]) ["a", "b"] =
      some (.dict []) ∧
    specResolve (.dict [("m", .int 7)]) "/m" = .ok (.int 7) ∧
    (match_up (.dict [("a", .dict [("b", .dict [])])]) (.dict [("m", .int 7)])
        "/a/b/c" "/m" =
      .ok (setAt (.dict [("a", .dict [("b", .dict [])])]) ["a", "b"] "c"
        (.int 7)) ∧
    chainResolves
        (setAt (.dict [("a", .dict [("b", .dict [])])]) ["a", "b"] "c"
          (.int 7)) ["a", "b"] =
      some (.dict (assocSet [] "c" (.int 7))) ∧
    assocGet (assocSet [] "c" (PyVal.int 7)) "c" = some (.int 7)) :=
  ⟨by decide, rfl, by decide, rfl, rfl,
    claim3_amended (.dict [("a", .dict [("b", .dict [])])])
      (.dict [("m", .int 7)]) "/a/b/c" "/m" ["a", "b"] "c" [] (.int 7)
      (by decide) rfl (by decide) rfl rfl⟩

/-!
## Claims C4 and C10

`has_extra` recurses into an attribute exactly when its exclusion entry is
truthy; a falsy entry (null, but also an empty nested set, empty string,
`0`, `False`) absorbs the whole subtree.  Claim C4's reading — recursion on
every non-null nested set — differs on the empty nested set `{}` and is
refuted below; the amended claim replaces "non-null nested set" with
"truthy entry".
-/

/-- Is the value a mapping (a "nested set" in the exclusion-set data
model)?  Used to state claim C4's literal visit condition: a non-null
nested-set entry. -/
def isDict : PyVal → Bool
  | .dict _ => true
  | _ => false

/-- Every attribute of the source is accounted for by the exclusion set
when recursion happens exactly on truthy exclusion entries (the amended
claim C4): at every visited level each source key is present in the
exclusion set, and where the entry is truthy the sub-document is
recursively accounted for. -/
inductive Accounted : PyVal → PyVal → Prop where
  | dict (d e : List (String × PyVal))
      (hmem : ∀ k, containsName d k = true → containsName e k = true)
      (hrec : ∀ k, containsName d k = true →
        truthy ((assocGet e k).getD PyVal.none) = true →
          Accounted ((assocGet d k).getD PyVal.none)
            ((assocGet e k).getD PyVal.none)) :
      Accounted (.dict d) (.dict e)

/-- Claim C4's literal notion: recursion into an attribute exactly when its
exclusion entry is a non-null nested set (any mapping, including the empty
one). -/
inductive AccountedNN : PyVal → PyVal → Prop where
  | dict (d e : List (String × PyVal))
      (hmem : ∀ k, containsName d k = true → containsName e k = true)
      (hrec : ∀ k, containsName d k = true →
        isDict ((assocGet e k).getD PyVal.none) = true →
          AccountedNN ((assocGet d k).getD PyVal.none)
            ((assocGet e k).getD PyVal.none)) :
      AccountedNN (.dict d) (.dict e)

/-- Shape compatibility of a source document with an exclusion set: both
are mappings, and wherever a source key has a truthy exclusion entry the
source value and the entry are again compatible (in particular both are
mappings).  This is the domain on which the spec's exclusion-set recursion
is meaningful; outside it `has_extra` can iterate a scalar (`TypeError`) or
call `.keys()` on a non-mapping (`AttributeError`). -/
inductive Compat : PyVal → PyVal → Prop where
  | dict (d e : List (String × PyVal))
      (h : ∀ k, containsName d k = true →
        truthy ((assocGet e k).getD PyVal.none) = true →
        Compat ((assocGet d k).getD PyVal.none)
          ((assocGet e k).getD PyVal.none)) :
      Compat (.dict d) (.dict e)

theorem containsName_iff_get {α : Type} (l : List (String × α)) (k : String) :
    containsName l k = true ↔ ∃ w, assocGet l k = some w := by
  induction l with
  | nil => simp [containsName, assocGet]
  | cons p rest ih =>
    by_cases hp : p.1 = k
    · simp [containsName, assocGet, hp]
    · simp [containsName, assocGet, hp, ih]

theorem containsName_of_mem {α : Type} {l : List (String × α)} {p : String × α}
    (h : p ∈ l) : containsName l p.1 = true := by
  induction l with
  | nil => simp at h
  | cons q rest ih =>
    rcases List.mem_cons.mp h with he | hm
    · rw [he]
      simp [containsName]
    · by_cases hq : q.1 = p.1
      · simp [containsName, hq]
      · simp [containsName, hq, ih hm]

theorem hasExtraLoop_nil (df ke : PyVal) : hasExtraLoop df ke [] = .ok false := by
  simp [hasExtraLoop]

theorem has_extra_dict (d : List (String × PyVal)) (ke : PyVal) :
    has_extra (.dict d) ke =
      hasExtraLoop (.dict d) ke (d.map (fun p => PyVal.str p.1)) := by
  simp [has_extra, iterOf]

/-- How one loop iteration of `has_extra` combines the recursive result
with the rest of the loop: an error propagates, a found extra returns
`True` at once, otherwise the loop continues. -/
def stepResult (r : Except PyErr Bool) (cont : Except PyErr Bool) :
    Except PyErr Bool :=
  match r with
  | .error e2 => .error e2
  | .ok true => .ok true
  | .ok false => cont

theorem stepResult_error (e2 : PyErr) (c : Except PyErr Bool) :
    stepResult (.error e2) c = .error e2 := rfl

theorem stepResult_true (c : Except PyErr Bool) :
    stepResult (.ok true) c = .ok true := rfl

theorem stepResult_false (c : Except PyErr Bool) :
    stepResult (.ok false) c = c := rfl

theorem hasExtraLoop_cons_str (d e : List (String × PyVal)) (k : String)
    (rest : List PyVal) :
    hasExtraLoop (.dict d) (.dict e) (.str k :: rest) =
      if containsName e k then
        if truthy ((assocGet e k).getD PyVal.none) then
          stepResult
            (has_extra ((assocGet d k).getD PyVal.none)
              ((assocGet e k).getD PyVal.none))
            (hasExtraLoop (.dict d) (.dict e) rest)
        else hasExtraLoop (.dict d) (.dict e) rest
      else .ok true := by
  rw [hasExtraLoop, dite_eq_ite]
  by_cases hce : containsName e k
  · rw [if_pos hce, if_pos hce]
    by_cases htr : truthy ((assocGet e k).getD PyVal.none)
    · rw [if_pos htr, if_pos htr]
      cases has_extra ((assocGet d k).getD PyVal.none)
          ((assocGet e k).getD PyVal.none) with
      | error e2 => rfl
      | ok b => cases b <;> rfl
    · rw [if_neg htr, if_neg htr]
  · rw [if_neg hce, if_neg hce]

theorem assocGet_mem {α : Type} {l : List (String × α)} {k : String} {w : α}
    (h : assocGet l k = some w) : (k, w) ∈ l := by
  induction l with
  | nil => simp [assocGet] at h
  | cons p rest ih =>
    obtain ⟨a, b⟩ := p
    by_cases hp : a = k
    · subst hp
      simp [assocGet] at h
      subst h
      exact List.mem_cons_self _ _
    · simp only [assocGet, if_neg hp] at h
      exact List.mem_cons_of_mem _ (ih h)

theorem hasExtra_iff_accounted :
    ∀ (n : Nat) (excl src : PyVal), sizeOf excl ≤ n → Compat src excl →
    (has_extra src excl = .ok false ↔ Accounted src excl) := by
  intro n
  induction n with
  | zero =>
    intro excl src hsz hc
    exfalso
    cases excl <;> simp at hsz
  | succ n ih =>
    intro excl src hsz hc
    cases hc with
    | dict d e h =>
      rw [has_extra_dict]
      have loop : ∀ ds : List (String × PyVal),
          (∀ p ∈ ds, containsName d p.1 = true) →
          (hasExtraLoop (.dict d) (.dict e)
              (ds.map (fun p => PyVal.str p.1)) = .ok false ↔
            ∀ p ∈ ds, containsName e p.1 = true ∧
              (truthy ((assocGet e p.1).getD PyVal.none) = true →
                Accounted ((assocGet d p.1).getD PyVal.none)
                  ((assocGet e p.1).getD PyVal.none))) := by
        intro ds
        induction ds with
        | nil =>
          intro _
          rw [List.map_nil, hasExtraLoop_nil]
          simp
        | cons p ds ihds =>
          intro hsub
          have hd1 : containsName d p.1 = true :=
            hsub p (List.mem_cons_self _ _)
          have hrest := ihds (fun q hq => hsub q (List.mem_cons_of_mem _ hq))
          rw [List.map_cons, hasExtraLoop_cons_str]
          by_cases hce : containsName e p.1
          · rw [if_pos hce]
            by_cases htr : truthy ((assocGet e p.1).getD PyVal.none)
            · rw [if_pos htr]
              have hszlt := truthy_getD_sizeOf e p.1 htr
              have hcsub := h p.1 hd1 htr
              have hiff := ih ((assocGet e p.1).getD PyVal.none)
                ((assocGet d p.1).getD PyVal.none)
                (by
                  simp only [PyVal.dict.sizeOf_spec] at hszlt hsz
                  omega)
                hcsub
              cases hres : has_extra ((assocGet d p.1).getD PyVal.none)
                  ((assocGet e p.1).getD PyVal.none) with
              | error e2 =>
                rw [hres] at hiff
                rw [stepResult_error]
                constructor
                · intro hL
                  simp at hL
                · intro hR
                  have hacc := (hR p (List.mem_cons_self _ _)).2 htr
                  have := hiff.mpr hacc
                  simp at this
              | ok b =>
                rw [hres] at hiff
                cases b with
                | false =>
                  rw [stepResult_false, hrest]
                  constructor
                  · intro hall q hq
                    rcases List.mem_cons.mp hq with he | hm
                    · rw [he]
                      exact ⟨hce, fun _ => hiff.mp rfl⟩
                    · exact hall q hm
                  · intro hall q hq
                    exact hall q (List.mem_cons_of_mem _ hq)
                | true =>
                  rw [stepResult_true]
                  constructor
                  · intro hL
                    simp at hL
                  · intro hR
                    have hacc := (hR p (List.mem_cons_self _ _)).2 htr
                    have := hiff.mpr hacc
                    simp at this
            · rw [if_neg htr, hrest]
              have htr' : truthy ((assocGet e p.1).getD PyVal.none) = false := by
                cases hb : truthy ((assocGet e p.1).getD PyVal.none)
                · rfl
                · exact absurd hb htr
              constructor
              · intro hall q hq
                rcases List.mem_cons.mp hq with he | hm
                · rw [he]
                  refine ⟨hce, fun hcon => absurd hcon ?_⟩
                  rw [htr']
                  simp
                · exact hall q hm
              · intro hall q hq
                exact hall q (List.mem_cons_of_mem _ hq)
          · rw [if_neg hce]
            constructor
            · intro hL
              simp at hL
            · intro hR
              exact absurd (hR p (List.mem_cons_self _ _)).1 hce
      rw [loop d (fun p hp => containsName_of_mem hp)]
      constructor
      · intro hall
        refine Accounted.dict d e ?_ ?_
        · intro k hk
          obtain ⟨w, hw⟩ := (containsName_iff_get d k).mp hk
          exact (hall (k, w) (assocGet_mem hw)).1
        · intro k hk htr
          obtain ⟨w, hw⟩ := (containsName_iff_get d k).mp hk
          exact (hall (k, w) (assocGet_mem hw)).2 htr
      · intro hacc
        cases hacc with
        | dict _ _ hmem hrec =>
          intro p hp
          exact ⟨hmem p.1 (containsName_of_mem hp),
            hrec p.1 (containsName_of_mem hp)⟩

/-- Claim C4, as stated, is false: with `source = {"a": {"x": 1}}` and
`exclusion_set = {"a": {}}` the entry for `a` is a non-null nested set, so
the claim's visit rule recurses into `{"x": 1}` and finds `x` unaccounted
at that level — yet `has_extra` returns false, because the code recurses
only on truthy entries and the empty nested set is falsy. -/
theorem claim4_counterexample :
    has_extra (.dict [("a", .dict [("x", .int 1)])])
      (.dict [("a", .dict [])]) = .ok false ∧
    ¬ AccountedNN (.dict [("a", .dict [("x", .int 1)])])
      (.dict [("a", .dict [])]) := by
  constructor
  · simp [has_extra, hasExtraLoop, iterOf, containsName, assocGet, truthy]
  · intro hacc
    cases hacc with
    | dict d e hmem hrec =>
      have h4 := hrec "a" (by rfl) (by rfl)
      have h5 : AccountedNN (.dict [("x", PyVal.int 1)]) (.dict []) := h4
      cases h5 with
      | dict d2 e2 hmem2 hrec2 =>
        have h6 := hmem2 "x" (by rfl)
        simp [containsName] at h6

/-- Claim C4 amended: for shape-compatible inputs, `has_extra` returns
false exactly when every attribute name, at every level it visits —
recursing into an attribute exactly when its exclusion-set entry is truthy
(a non-empty nested set; the empty nested set, like null, absorbs the
subtree) — is present in the exclusion set at that level; in particular the
claim's two quoted examples evaluate to false and true respectively. -/
theorem claim4_has_extra (src excl : PyVal) (h : Compat src excl) :
    (has_extra src excl = .ok false ↔ Accounted src excl) ∧
    has_extra (.dict [("a", .int 1), ("b", .dict [("c", .int 2)])])
      (.dict [("a", .none), ("b", .dict [("c", .none)])]) = .ok false ∧
    has_extra (.dict [("a", .int 1), ("x", .int 2)])
      (.dict [("a", .none), ("b", .dict [("c", .none)])]) = .ok true :=
  ⟨hasExtra_iff_accounted (sizeOf excl) excl src le_rfl h,
   by simp [has_extra, hasExtraLoop, iterOf, containsName, assocGet, truthy],
   by simp [has_extra, hasExtraLoop, iterOf, containsName, assocGet, truthy]⟩

theorem compat_example :
    Compat (.dict [("a", .int 1), ("b", .dict [("c", .int 2)])])
      (.dict [("a", .none), ("b", .dict [("c", .none)])]) := by
  refine Compat.dict _ _ ?_
  intro k hk htr
  by_cases ha : ("a" : String) = k
  · subst ha
    simp [assocGet, truthy] at htr
  · by_cases hb : ("b" : String) = k
    · subst hb
      have hnested : Compat (.dict [("c", PyVal.int 2)])
          (.dict [("c", PyVal.none)]) := by
        refine Compat.dict _ _ ?_
        intro k2 hk2 htr2
        by_cases hc : ("c" : String) = k2
        · subst hc
          simp [assocGet, truthy] at htr2
        · simp [containsName, hc] at hk2
      exact hnested
    · simp [containsName, ha, hb] at hk

/-- Witness for C4 amended at the claim's first example, whose exclusion
set is shape-compatible with the source. -/
theorem claim4_witness :
    Compat (.dict [("a", .int 1), ("b", .dict [("c", .int 2)])])
      (.dict [("a", .none), ("b", .dict [("c", .none)])]) ∧
    ((has_extra (.dict [("a", .int 1), ("b", .dict [("c", .int 2)])])
        (.dict [("a", .none), ("b", .dict [("c", .none)])]) = .ok false ↔
      Accounted (.dict [("a", .int 1), ("b", .dict [("c", .int 2)])])
        (.dict [("a", .none), ("b", .dict [("c", .none)])])) ∧
      has_extra (.dict [("a", .int 1), ("b", .dict [("c", .int 2)])])
        (.dict [("a", .none), ("b", .dict [("c", .none)])]) = .ok false ∧
      has_extra (.dict [("a", .int 1), ("x", .int 2)])
        (.dict [("a", .none), ("b", .dict [("c", .none)])]) = .ok true) :=
  ⟨compat_example, claim4_has_extra _ _ compat_example⟩

theorem assocGet_mid_ne (s1 s2 : List (String × PyVal)) (k k' : String)
    (v w : PyVal) (h : k ≠ k') :
    assocGet (s1 ++ (k, v) :: s2) k' = assocGet (s1 ++ (k, w) :: s2) k' := by
  induction s1 with
  | nil => simp [assocGet, h]
  | cons p rest ih =>
    by_cases hp : p.1 = k'
    · simp [assocGet, hp]
    · simp [assocGet, hp, ih]

theorem hasExtraLoop_congr :
    ∀ (ds : List (String × PyVal)) (e dV dW : List (String × PyVal)),
    (∀ k' ev', assocGet e k' = some ev' → truthy ev' = true →
      assocGet dV k' = assocGet dW k') →
    hasExtraLoop (.dict dV) (.dict e) (ds.map (fun p => PyVal.str p.1)) =
      hasExtraLoop (.dict dW) (.dict e) (ds.map (fun p => PyVal.str p.1)) := by
  intro ds
  induction ds with
  | nil =>
    intro e dV dW H
    rw [List.map_nil, hasExtraLoop_nil, hasExtraLoop_nil]
  | cons p ds ih =>
    intro e dV dW H
    rw [List.map_cons, hasExtraLoop_cons_str, hasExtraLoop_cons_str]
    by_cases hce : containsName e p.1
    · rw [if_pos hce, if_pos hce]
      by_cases htr : truthy ((assocGet e p.1).getD PyVal.none)
      · rw [if_pos htr, if_pos htr]
        obtain ⟨w', hw⟩ := (containsName_iff_get e p.1).mp hce
        have htr2 : truthy w' = true := by
          rw [hw] at htr
          simpa using htr
        have hVW := H p.1 w' hw htr2
        rw [hVW, ih e dV dW H]
      · rw [if_neg htr, if_neg htr, ih e dV dW H]
    · rw [if_neg hce, if_neg hce]

/-- Claim C10: an attribute whose exclusion entry is falsy (null, but also
an empty mapping, empty string, `0` or `False`) is fully excluded by
`has_extra`: the result does not depend on that attribute's sub-document at
all (no recursion into it ever happens), and in particular
`has_extra({"a": {"x": 1}}, {"a": {}})` is false. -/
theorem claim10_falsy_entry (e s1 s2 : List (String × PyVal)) (k : String)
    (v w ev : PyVal) (h1 : assocGet e k = some ev) (h2 : truthy ev = false) :
    has_extra (.dict (s1 ++ (k, v) :: s2)) (.dict e) =
      has_extra (.dict (s1 ++ (k, w) :: s2)) (.dict e) ∧
    has_extra (.dict [("a", .dict [("x", .int 1)])])
      (.dict [("a", .dict [])]) = .ok false := by
  constructor
  · rw [has_extra_dict, has_extra_dict]
    have hitems : (s1 ++ (k, w) :: s2).map (fun p => PyVal.str p.1) =
        (s1 ++ (k, v) :: s2).map (fun p => PyVal.str p.1) := by
      simp
    rw [hitems]
    apply hasExtraLoop_congr
    intro k' ev' hget htr
    by_cases hk : k = k'
    · subst hk
      rw [h1] at hget
      injection hget with he
      rw [← he] at htr
      rw [h2] at htr
      exact absurd htr (by simp)
    · exact assocGet_mid_ne s1 s2 k k' v w hk
  · simp [has_extra, hasExtraLoop, iterOf, containsName, assocGet, truthy]

/-- Witness for C10: the entry for `a` is the falsy empty mapping, so
replacing the sub-document `{"x": 1}` by `5` does not change the result. -/
theorem claim10_witness :
    assocGet [("a", PyVal.dict [])] "a" = some (PyVal.dict []) ∧
    truthy (PyVal.dict []) = false ∧
    (has_extra (.dict ([] ++ ("a", PyVal.dict [("x", PyVal.int 1)]) :: []))
        (.dict [("a", PyVal.dict [])]) =
      has_extra (.dict ([] ++ ("a", PyVal.int 5) :: []))
        (.dict [("a", PyVal.dict [])]) ∧
     has_extra (.dict [("a", .dict [("x", .int 1)])])
        (.dict [("a", .dict [])]) = .ok false) :=
  ⟨rfl, rfl, claim10_falsy_entry [("a", PyVal.dict [])] [] [] "a"
    (PyVal.dict [("x", PyVal.int 1)]) (PyVal.int 5) (PyVal.dict []) rfl rfl⟩
